import Mathlib

/-!
Verification of the contextual-search core: the integer addressing engine
(src/core/ctgEngine.ts, class CTGEngine) and the dual-coordinate containment
tree (src/core/dtree.ts, classes DTreeNode / TokenXref / DTree), shallowly
embedded in Lean.

JavaScript numbers are embedded as Int: every value the engine manipulates
is an integer, and IEEE doubles represent integers below 2^53 exactly (the
few places where a source computation can leave that range are noted at the
definition).  The bitwise operators of the source (n & 1, n >> 1) operate on
32-bit two's complement integers per ECMA-262 - each operand is first
converted with ToInt32 - and are embedded exactly by jsToInt32 / jsAnd1 /
jsShr1 below.  While loops of the source are embedded with an explicit fuel
argument; the .diverge outcome means only that the loop has not finished
within the given fuel (the source has no step bound of its own).
-/

namespace Ctg

/-- ToInt32 conversion of ECMA-262: the integer is reduced mod 2^32 into the
interval from -2^31 to 2^31 - 1.  JavaScript applies it to every operand of
the bitwise operators used by CTGEngine. -/
def jsToInt32 (n : Int) : Int :=
  let m := n.emod (2 ^ 32)
  if m < 2 ^ 31 then m else m - 2 ^ 32

/-- Embedding of the JavaScript expression (n & 1): the low bit of the
32-bit two's complement image of n, i.e. its value mod 2. -/
def jsAnd1 (n : Int) : Int := (jsToInt32 n).emod 2

/-- Embedding of the JavaScript expression (n >> 1): 32-bit arithmetic right
shift by one, i.e. floor division of the ToInt32 image by 2. -/
def jsShr1 (n : Int) : Int := (jsToInt32 n).fdiv 2

/-- Thrown errors of CTGEngine: validatePositiveInteger throws the
"Invalid node ID" error (invalidId) and mintNextChild throws the
"Unable to find available child" error (noAvailableChild).  These are the
only throw sites in src/core/ctgEngine.ts. -/
inductive CtgError where
  | invalidId
  | noAvailableChild
deriving DecidableEq, Repr

/-- Result of a CTGEngine operation: a returned value, a thrown error, or
fuel exhaustion (.diverge), which marks a while loop of the source that has
not terminated within the supplied fuel. -/
inductive Outcome (α : Type) where
  | ok (a : α)
  | err (e : CtgError)
  | diverge
deriving DecidableEq, Repr

/-- Loop of CTGEngine.getOddPart: while ((n & 1) === 0) n = n >> 1 - with
the 32-bit semantics of both operators. -/
def getOddPartLoop : Nat → Int → Outcome Int
  | 0, _ => .diverge
  | fuel + 1, n => if jsAnd1 n = 0 then getOddPartLoop fuel (jsShr1 n) else .ok n

/-- CTGEngine.getOddPart: validatePositiveInteger (throws for n < 1; in this
Int embedding the non-integer inputs of the source do not arise), then the
bit-stripping loop. -/
def getOddPart (fuel : Nat) (n : Int) : Outcome Int :=
  if n < 1 then .err .invalidId else getOddPartLoop fuel n

/-- CTGEngine.getParent: null for n = 1, n >> 1 for even n (the 32-bit
shift of the source), getOddPart (3n + 1) for odd n.  The inner Option is
the number-or-null result type of the source. -/
def getParent (fuel : Nat) (n : Int) : Outcome (Option Int) :=
  if n < 1 then .err .invalidId
  else if n = 1 then .ok none
  else if jsAnd1 n = 0 then .ok (some (jsShr1 n))
  else
    match getOddPart fuel (3 * n + 1) with
    | .ok m => .ok (some m)
    | .err e => .err e
    | .diverge => .diverge

/-- Loop of CTGEngine.getAncestryChain: while (current !== 1) compute the
parent, break on null, push it and continue.  The source has no step bound
and no divergence error of its own; steps is only the fuel of this
embedding, and oddFuel is threaded to the getOddPart loop. -/
def getAncestryChainLoop (oddFuel : Nat) : Nat → Int → List Int → Outcome (List Int)
  | 0, _, _ => .diverge
  | steps + 1, current, chain =>
    if current = 1 then .ok chain
    else
      match getParent oddFuel current with
      | .ok none => .ok chain
      | .ok (some p) => getAncestryChainLoop oddFuel steps p (chain ++ [p])
      | .err e => .err e
      | .diverge => .diverge

/-- CTGEngine.getAncestryChain: validate, then walk parents starting from
the one-element chain containing n. -/
def getAncestryChain (oddFuel steps : Nat) (n : Int) : Outcome (List Int) :=
  if n < 1 then .err .invalidId else getAncestryChainLoop oddFuel steps n [n]

/-- Insertion step of an ascending insertion sort over Int. -/
def insertAsc (x : Int) : List Int → List Int
  | [] => [x]
  | y :: ys => if x ≤ y then x :: y :: ys else y :: insertAsc x ys

/-- Ascending sort, embedding children.sort((a, b) => a - b) at the end of
CTGEngine.findAdmissibleAssociates. -/
def sortAsc : List Int → List Int
  | [] => []
  | x :: xs => insertAsc x (sortAsc xs)

/-- Loop body of CTGEngine.findAdmissibleAssociates, iterating the exponent
k while count counts the remaining iterations down to 0.  Each round
computes numerator = 2^k * parentID - 1 (exact here; in the source
Math.pow(2, k) * parentID - 1 is a double and can round once it passes 2^53,
which changes no accept/reject decision at the inputs considered in this
file), keeps candidate = numerator / 3 when divisible, positive and odd (the
32-bit parity test of the source), and pushes it only when getParent
re-derives parentID. -/
def findAssocGo (fuel : Nat) (parentID : Int) : Nat → Nat → List Int → Outcome (List Int)
  | _, 0, acc => .ok (sortAsc acc)
  | k, count + 1, acc =>
    let numerator := 2 ^ k * parentID - 1
    if numerator.emod 3 = 0 then
      let candidate := numerator / 3
      if 0 < candidate ∧ jsAnd1 candidate = 1 then
        match getParent fuel candidate with
        | .ok r =>
          if r = some parentID then
            findAssocGo fuel parentID (k + 1) count (acc ++ [candidate])
          else
            findAssocGo fuel parentID (k + 1) count acc
        | .err e => .err e
        | .diverge => .diverge
      else findAssocGo fuel parentID (k + 1) count acc
    else findAssocGo fuel parentID (k + 1) count acc

/-- CTGEngine.findAdmissibleAssociates parentID maxSearch: validate, then
run the exponent loop for k = 1 .. maxSearch. -/
def findAdmissibleAssociates (fuel : Nat) (parentID : Int) (maxSearch : Nat) : Outcome (List Int) :=
  if parentID < 1 then .err .invalidId else findAssocGo fuel parentID 1 maxSearch []

/-- CTGEngine.mintNextChild: the first entry of
findAdmissibleAssociates (parentID, 30) not contained in currentChildren;
the noAvailableChild error when every entry is taken (or none exists). -/
def mintNextChild (fuel : Nat) (parentID : Int) (currentChildren : List Int) : Outcome Int :=
  if parentID < 1 then .err .invalidId
  else
    match findAdmissibleAssociates fuel parentID 30 with
    | .ok admissible =>
      match admissible.find? (fun c => !(currentChildren.contains c)) with
      | some c => .ok c
      | none => .err .noAvailableChild
    | .err e => .err e
    | .diverge => .diverge

/-- CTGEngine.mintNextVersion: validate, then return n * 2 (ordinary double
multiplication in the source, exact for every integer input below 2^53). -/
def mintNextVersion (n : Int) : Outcome Int :=
  if n < 1 then .err .invalidId else .ok (n * 2)

/-- Follows the spec's words (section 4.1): oddPart strips the factors of
two of a positive integer.  Structural halving with fuel n, which always
suffices since a positive integer can be halved at most log2 n times; used
as the spec-side reference point when a claim speaks of the mathematical
odd part or parent. -/
def specOddPartAux : Nat → Nat → Nat
  | 0, n => n
  | f + 1, n => if n % 2 = 0 ∧ 0 < n then specOddPartAux f (n / 2) else n

/-- Spec-side odd part of a positive integer (see specOddPartAux). -/
def specOddPart (n : Nat) : Nat := specOddPartAux n n

/-- Follows the spec's words (section 4.1): parent(1) is None, parent of an
even n is n / 2, parent of an odd n other than 1 is oddPart (3n + 1). -/
def specParent (n : Nat) : Option Nat :=
  if n ≤ 1 then none
  else if n % 2 = 0 then some (n / 2)
  else some (specOddPart (3 * n + 1))

end Ctg

namespace Ctg

/-- C4: the claim states that for every even positive n the code returns
n / 2.  At n = 2^31 the source computes n >> 1 on the 32-bit image of n
(which is -2^31), so it returns -2^30 instead of 2^30: the code contradicts
its own documentation ("parent is 2^(k-1) x m").  The second conjunct
records the value the claim requires. -/
theorem getParent_even_breaks_at_two_pow_31 :
    getParent 64 2147483648 = .ok (some (-1073741824)) ∧
    (2147483648 : Int) / 2 = 1073741824 ∧
    (-1073741824 : Int) ≠ 1073741824 := by
  refine ⟨by decide, by decide, by decide⟩

/-- C5: the claim states the ancestry walk is bounded by a maximum-steps
guard and fails with AddressingDivergence when the bound is exceeded.  The
source has no guard and no such error: on n = 2^32 the unguarded walk steps
to 0 (the 32-bit shift maps 2^32 to 0) and then throws the InvalidId
validation error - the only failure the code can produce. -/
theorem getAncestryChain_unguarded_walk_hits_invalidId :
    getAncestryChain 64 64 4294967296 = .err .invalidId := by
  decide

/-- C7: the claim states oddPart (2^k * m) = m for odd m.  At
k = 31, m = 1 the source returns -1: the first 32-bit shift turns 2^31 into
-2^30 and the loop then walks the negative values down to -1.  The second
conjunct records the spec-side value. -/
theorem getOddPart_breaks_at_two_pow_31 :
    getOddPart 64 2147483648 = .ok (-1) ∧ specOddPart 2147483648 = 1 := by
  refine ⟨by decide, by decide⟩

/-- C10: the claim states parent (mintNextVersion n) = n for every positive
n.  mintNextVersion does return 2n, but at n = 2^30 the parent of the
minted version 2^31 is computed with the 32-bit shift and comes back as
-2^30, not n. -/
theorem mintNextVersion_parent_breaks_at_two_pow_30 :
    mintNextVersion 1073741824 = .ok 2147483648 ∧
    getParent 64 2147483648 = .ok (some (-1073741824)) ∧
    (-1073741824 : Int) ≠ 1073741824 := by
  refine ⟨by decide, by decide, by decide⟩

/-- C6: the claim states mintChild (parentId, usedIds) returns the smallest
odd candidate c with parent c = parentId not in usedIds, failing with
NoAvailableChild only when the bounded search finds nothing.  At
parentId = 2147483651 with no used ids, candidate 1431655767 (exponent
k = 1 of the bounded search: 3 * 1431655767 + 1 = 2 * 2147483651) is odd
and has spec parent 2147483651, yet the source throws NoAvailableChild: its
verification step re-derives the parent with the 32-bit getOddPart, which
mangles every value at or above 2^31 and rejects all candidates. -/
theorem mintNextChild_rejects_valid_candidate :
    mintNextChild 64 2147483651 [] = .err .noAvailableChild ∧
    specParent 1431655767 = some 2147483651 ∧
    (1431655767 : Nat) % 2 = 1 ∧
    2 ^ 1 * (2147483651 : Int) - 1 = 3 * 1431655767 := by
  refine ⟨by decide, by decide, by decide, by decide⟩

end Ctg

namespace DT

/-- Node of the dual-projection tree DTreeNode (src/core/dtree.ts): the node
identifier (the counter behind the node_k strings of generateId), the two
order coordinates q1 and q2, the data fields type and content, the sibling
back-references prevSibling / nextSibling (stored as node identifiers; in
the source they are object references), and the owned children.  The parent
back-reference of the source is not stored: in a well-formed tree it is
determined as the node one level up, and nodes are addressed below by their
path from the root. -/
inductive DNode where
  | node (id : Nat) (q1 q2 : Int) (kind : String) (content : Option String)
      (prevSibling nextSibling : Option Nat) (children : List DNode)
deriving Repr

/-- Node identifier. -/
def DNode.id : DNode → Nat
  | .node i _ _ _ _ _ _ _ => i

/-- Pre-order coordinate Q1. -/
def DNode.q1 : DNode → Int
  | .node _ a _ _ _ _ _ _ => a

/-- Post-order coordinate Q2. -/
def DNode.q2 : DNode → Int
  | .node _ _ b _ _ _ _ _ => b

/-- Sibling back-reference prevSibling. -/
def DNode.prevSibling : DNode → Option Nat
  | .node _ _ _ _ _ ps _ _ => ps

/-- Sibling back-reference nextSibling. -/
def DNode.nextSibling : DNode → Option Nat
  | .node _ _ _ _ _ _ ns _ => ns

/-- Owned children, in order. -/
def DNode.children : DNode → List DNode
  | .node _ _ _ _ _ _ _ cs => cs

mutual

/-- Number of nodes of a tree. -/
def size : DNode → Nat
  | .node _ _ _ _ _ _ _ cs => 1 + sizeList cs

/-- Number of nodes of a forest. -/
def sizeList : List DNode → Nat
  | [] => 0
  | c :: cs => size c + sizeList cs

end

/-- Subtree at a path of child indices; none when the path leaves the
tree.  Valid paths stand for the nodes of the tree: the node at [] is the
root, the node at p ++ [i] is child i of the node at p, and the parent
pointer of the source points from the node at p ++ [i] back to the node at
p. -/
def subAt? : DNode → List Nat → Option DNode
  | t, [] => some t
  | t, i :: p =>
    match t.children.get? i with
    | some c => subAt? c p
    | none => none

/-- Ancestor relation of the tree: the node at pa is a proper ancestor of
the node at pb exactly when pa is a strict prefix of pb. -/
def IsAncestorPath (pa pb : List Nat) : Prop := pa <+: pb ∧ pa ≠ pb

/-- Spacing between consecutive coordinate values: INITIAL_SPACING of the
source. -/
def spacing : Int := 1000

mutual

/-- Effect on q1 of building a subtree with DTree.appendChild in
complete-subtree (depth-first) order: every append runs
calculateChildIndices, which advances the single q1 counter of the tree by
INITIAL_SPACING and stamps the new node with it, so under a depth-first
build the node appended when the counter reads c is stamped c and its
descendants are stamped next, left to right.  labelQ1 c t stamps the root
of t with c and threads the counter through the children; the returned Int
is the counter after the subtree (the value of q1Counter once the whole
subtree has been appended).  Starting it at 0 matches the constructor,
which gives the root q1 = 0 and starts q1Counter at 0.  All other node
fields are left untouched. -/
def labelQ1 (c : Int) : DNode → DNode × Int
  | .node i _ b k ct ps ns cs =>
    (.node i c b k ct ps ns (labelQ1List (c + spacing) cs).1, (labelQ1List (c + spacing) cs).2)

/-- Counter-threaded q1 stamping of a forest, left to right (see labelQ1). -/
def labelQ1List (c : Int) : List DNode → List DNode × Int
  | [] => ([], c)
  | t :: ts =>
    ((labelQ1 c t).1 :: (labelQ1List (labelQ1 c t).2 ts).1,
      (labelQ1List (labelQ1 c t).2 ts).2)

end

mutual

/-- DTree.recalculateQ2: the post-order traverse visits the children first,
then advances the counter by INITIAL_SPACING and stamps the node, so a node
is stamped after everything in its subtree.  labelQ2 c t returns the
restamped tree and the counter after the subtree; the root of t receives
exactly that final counter value.  q1 and all other fields are left
untouched. -/
def labelQ2 (c : Int) : DNode → DNode × Int
  | .node i a _ k ct ps ns cs =>
    (.node i a ((labelQ2List c cs).2 + spacing) k ct ps ns (labelQ2List c cs).1,
      (labelQ2List c cs).2 + spacing)

/-- Counter-threaded post-order q2 stamping of a forest (see labelQ2). -/
def labelQ2List (c : Int) : List DNode → List DNode × Int
  | [] => ([], c)
  | t :: ts =>
    ((labelQ2 c t).1 :: (labelQ2List (labelQ2 c t).2 ts).1,
      (labelQ2List (labelQ2 c t).2 ts).2)

end

/-- DTree.recalculateQ2 run on the whole tree: counter starts at 0 at the
root. -/
def recalculateQ2 (t : DNode) : DNode := (labelQ2 0 t).1

mutual

theorem size_pos : ∀ t : DNode, 1 ≤ size t
  | .node _ _ _ _ _ _ _ cs => by
    have := sizeList_nonneg cs
    simp only [size]
    omega

theorem sizeList_nonneg : ∀ ts : List DNode, 0 ≤ sizeList ts
  | [] => by simp [sizeList]
  | t :: ts => by
    have h1 := size_pos t
    have h2 := sizeList_nonneg ts
    simp only [sizeList]
    omega

end

mutual

theorem labelQ1_snd : ∀ (c : Int) (t : DNode), (labelQ1 c t).2 = c + spacing * size t
  | c, .node i a b k ct ps ns cs => by
    have h := labelQ1List_snd (c + spacing) cs
    simp only [labelQ1, size, h]
    push_cast
    ring

theorem labelQ1List_snd : ∀ (c : Int) (ts : List DNode),
    (labelQ1List c ts).2 = c + spacing * sizeList ts
  | c, [] => by simp [labelQ1List, sizeList]
  | c, t :: ts => by
    have h1 := labelQ1_snd c t
    have h2 := labelQ1List_snd (labelQ1 c t).2 ts
    rw [h1] at h2
    simp only [labelQ1List, sizeList, h1, h2]
    push_cast
    ring

end

mutual

theorem labelQ2_snd : ∀ (c : Int) (t : DNode), (labelQ2 c t).2 = c + spacing * size t
  | c, .node i a b k ct ps ns cs => by
    have h := labelQ2List_snd c cs
    simp only [labelQ2, size, h]
    push_cast
    ring

theorem labelQ2List_snd : ∀ (c : Int) (ts : List DNode),
    (labelQ2List c ts).2 = c + spacing * sizeList ts
  | c, [] => by simp [labelQ2List, sizeList]
  | c, t :: ts => by
    have h1 := labelQ2_snd c t
    have h2 := labelQ2List_snd (labelQ2 c t).2 ts
    rw [h1] at h2
    simp only [labelQ2List, sizeList, h1, h2]
    push_cast
    ring

end

theorem labelQ1_fst_q1 (c : Int) (t : DNode) : ((labelQ1 c t).1).q1 = c := by
  cases t; rfl

theorem labelQ2_fst_q1 (c : Int) (t : DNode) : ((labelQ2 c t).1).q1 = t.q1 := by
  cases t; rfl

theorem labelQ2_fst_q2 (c : Int) (t : DNode) :
    ((labelQ2 c t).1).q2 = c + spacing * size t := by
  cases t with
  | node i a b k ct ps ns cs =>
    have h := labelQ2List_snd c cs
    simp only [labelQ2, DNode.q2, h, size]
    push_cast
    ring

theorem labelQ1List_get (ts : List DNode) : ∀ (c : Int) (i : Nat),
    ((labelQ1List c ts).1).get? i
      = (ts.get? i).map (fun s => (labelQ1 (c + spacing * sizeList (ts.take i)) s).1) := by
  induction ts with
  | nil => intro c i; simp [labelQ1List]
  | cons t ts ih =>
    intro c i
    cases i with
    | zero => simp [labelQ1List, List.take, sizeList]
    | succ i =>
      simp only [labelQ1List, List.get?_cons_succ]
      rw [ih, labelQ1_snd]
      cases h : ts.get? i with
      | none => simp
      | some s =>
        simp only [Option.map_some']
        have : c + spacing * ↑(size t) + spacing * ↑(sizeList (ts.take i))
            = c + spacing * ↑(sizeList ((t :: ts).take (i + 1))) := by
          simp only [List.take_succ_cons, sizeList]
          push_cast
          ring
        rw [this]

theorem labelQ2List_get (ts : List DNode) : ∀ (c : Int) (i : Nat),
    ((labelQ2List c ts).1).get? i
      = (ts.get? i).map (fun s => (labelQ2 (c + spacing * sizeList (ts.take i)) s).1) := by
  induction ts with
  | nil => intro c i; simp [labelQ2List]
  | cons t ts ih =>
    intro c i
    cases i with
    | zero => simp [labelQ2List, List.take, sizeList]
    | succ i =>
      simp only [labelQ2List, List.get?_cons_succ]
      rw [ih, labelQ2_snd]
      cases h : ts.get? i with
      | none => simp
      | some s =>
        simp only [Option.map_some']
        have : c + spacing * ↑(size t) + spacing * ↑(sizeList (ts.take i))
            = c + spacing * ↑(sizeList ((t :: ts).take (i + 1))) := by
          simp only [List.take_succ_cons, sizeList]
          push_cast
          ring
        rw [this]

theorem sizeList_take_get (ts : List DNode) : ∀ (i : Nat) (s : DNode),
    ts.get? i = some s → sizeList (ts.take i) + size s ≤ sizeList ts := by
  induction ts with
  | nil => intro i s h; simp at h
  | cons t ts ih =>
    intro i s h
    cases i with
    | zero =>
      simp only [List.get?_cons_zero, Option.some.injEq] at h
      subst h
      have := sizeList_nonneg ts
      simp only [List.take_zero, sizeList]
      omega
    | succ i =>
      simp only [List.get?_cons_succ] at h
      have := ih i s h
      simp only [List.take_succ_cons, sizeList]
      omega

theorem sizeList_take_succ_get (ts : List DNode) : ∀ (i : Nat) (s : DNode),
    ts.get? i = some s →
    sizeList (ts.take (i + 1)) = sizeList (ts.take i) + size s := by
  induction ts with
  | nil => intro i s h; simp at h
  | cons t ts ih =>
    intro i s h
    cases i with
    | zero =>
      simp only [List.get?_cons_zero, Option.some.injEq] at h
      subst h
      simp [List.take_succ_cons, List.take_zero, sizeList]
    | succ i =>
      simp only [List.get?_cons_succ] at h
      have := ih i s h
      simp only [List.take_succ_cons, sizeList]
      omega

theorem sizeList_take_mono (ts : List DNode) : ∀ {i j : Nat}, i ≤ j →
    sizeList (ts.take i) ≤ sizeList (ts.take j) := by
  induction ts with
  | nil => intro i j _; simp
  | cons t ts ih =>
    intro i j hij
    cases i with
    | zero =>
      cases j with
      | zero => exact le_refl _
      | succ j =>
        have h1 := size_pos t
        have h2 := sizeList_nonneg (ts.take j)
        simp only [List.take_zero, List.take_succ_cons, sizeList]
        omega
    | succ i =>
      cases j with
      | zero => omega
      | succ j =>
        have := ih (Nat.succ_le_succ_iff.mp hij)
        simp only [List.take_succ_cons, sizeList]
        omega

theorem subAt?_append (p : List Nat) : ∀ (t : DNode) (q : List Nat),
    subAt? t (p ++ q) = (subAt? t p).bind (fun s => subAt? s q) := by
  induction p with
  | nil => intro t q; simp [subAt?]
  | cons i p ih =>
    intro t q
    simp only [List.cons_append, subAt?]
    cases t.children.get? i with
    | none => simp
    | some c => simpa using ih c q

theorem subAt?_labelQ1 (p : List Nat) : ∀ (c : Int) (t n : DNode),
    subAt? (labelQ1 c t).1 p = some n →
    ∃ (c₀ : Int) (t₀ : DNode), subAt? t p = some t₀ ∧ n = (labelQ1 c₀ t₀).1 ∧
      c ≤ c₀ ∧ c₀ + spacing * size t₀ ≤ c + spacing * size t ∧
      (p ≠ [] → c + spacing ≤ c₀) := by
  induction p with
  | nil =>
    intro c t n h
    simp only [subAt?, Option.some.injEq] at h
    exact ⟨c, t, rfl, h.symm, le_refl _, le_refl _, by simp⟩
  | cons i p ih =>
    intro c t n h
    cases t with
    | node jj aa bb kk cc pp nn cs =>
      simp only [subAt?, labelQ1, DNode.children] at h
      rw [labelQ1List_get] at h
      cases hg : cs.get? i with
      | none => rw [hg] at h; simp at h
      | some s =>
        rw [hg] at h
        simp only [Option.map_some'] at h
        obtain ⟨c₀, t₀, hsub, hn, hle, hup, _⟩ := ih _ s n h
        refine ⟨c₀, t₀, ?_, hn, ?_, ?_, ?_⟩
        · simp only [subAt?, DNode.children, hg]
          exact hsub
        · have h1 := sizeList_nonneg (cs.take i)
          have : (0 : Int) ≤ spacing * ↑(sizeList (cs.take i)) := by
            have : (0 : Int) ≤ ↑(sizeList (cs.take i)) := by exact_mod_cast h1
            simp only [spacing]
            omega
          simp only [spacing] at *
          omega
        · have htake := sizeList_take_get cs i s hg
          have : (↑(sizeList (cs.take i)) : Int) + ↑(size s) ≤ ↑(sizeList cs) := by
            exact_mod_cast htake
          simp only [size]
          push_cast
          simp only [spacing] at *
          omega
        · intro _
          have h1 := sizeList_nonneg (cs.take i)
          have : (0 : Int) ≤ ↑(sizeList (cs.take i)) := by exact_mod_cast h1
          simp only [spacing] at *
          omega

theorem subAt?_labelQ2 (p : List Nat) : ∀ (c : Int) (t n : DNode),
    subAt? (labelQ2 c t).1 p = some n →
    ∃ (c₀ : Int) (t₀ : DNode), subAt? t p = some t₀ ∧ n = (labelQ2 c₀ t₀).1 ∧
      c ≤ c₀ ∧ c₀ + spacing * size t₀ ≤ c + spacing * size t ∧
      (p ≠ [] → c₀ + spacing * size t₀ + spacing ≤ c + spacing * size t) := by
  induction p with
  | nil =>
    intro c t n h
    simp only [subAt?, Option.some.injEq] at h
    exact ⟨c, t, rfl, h.symm, le_refl _, le_refl _, by simp⟩
  | cons i p ih =>
    intro c t n h
    cases t with
    | node jj aa bb kk cc pp nn cs =>
      simp only [subAt?, labelQ2, DNode.children] at h
      rw [labelQ2List_get] at h
      cases hg : cs.get? i with
      | none => rw [hg] at h; simp at h
      | some s =>
        rw [hg] at h
        simp only [Option.map_some'] at h
        obtain ⟨c₀, t₀, hsub, hn, hle, hup, _⟩ := ih _ s n h
        have htake := sizeList_take_get cs i s hg
        have htake' : (↑(sizeList (cs.take i)) : Int) + ↑(size s) ≤ ↑(sizeList cs) := by
          exact_mod_cast htake
        have h1 := sizeList_nonneg (cs.take i)
        have h1' : (0 : Int) ≤ ↑(sizeList (cs.take i)) := by exact_mod_cast h1
        refine ⟨c₀, t₀, ?_, hn, ?_, ?_, ?_⟩
        · simp only [subAt?, DNode.children, hg]
          exact hsub
        · simp only [spacing] at *
          omega
        · simp only [size]
          push_cast
          simp only [spacing] at *
          omega
        · intro _
          simp only [size]
          push_cast
          simp only [spacing] at *
          omega

theorem subAt?_labelQ2_q1 (p : List Nat) : ∀ (c : Int) (t : DNode),
    (subAt? (labelQ2 c t).1 p).map DNode.q1 = (subAt? t p).map DNode.q1 := by
  induction p with
  | nil =>
    intro c t
    cases t with
    | node jj aa bb kk cc pp nn cs => simp [subAt?, labelQ2, DNode.q1]
  | cons i p ih =>
    intro c t
    cases t with
    | node jj aa bb kk cc pp nn cs =>
      simp only [subAt?, labelQ2, DNode.children]
      rw [labelQ2List_get]
      cases hg : cs.get? i with
      | none => simp
      | some s =>
        simp only [Option.map_some']
        exact ih _ s

theorem labelQ1_cross (c : Int) (t : DNode) {i j : Nat} {qa qb : List Nat} {na nb : DNode}
    (hij : i < j)
    (ha : subAt? (labelQ1 c t).1 (i :: qa) = some na)
    (hb : subAt? (labelQ1 c t).1 (j :: qb) = some nb) :
    na.q1 < nb.q1 := by
  cases t with
  | node jj aa bb kk cc pp nn cs =>
    simp only [subAt?, labelQ1, DNode.children] at ha hb
    rw [labelQ1List_get] at ha hb
    cases hgi : cs.get? i with
    | none => rw [hgi] at ha; simp at ha
    | some si =>
      cases hgj : cs.get? j with
      | none => rw [hgj] at hb; simp at hb
      | some sj =>
        rw [hgi] at ha; rw [hgj] at hb
        simp only [Option.map_some'] at ha hb
        obtain ⟨ca, ta, _, hna, hla, hua, _⟩ := subAt?_labelQ1 qa _ si na ha
        obtain ⟨cb, tb, _, hnb, hlb, _, _⟩ := subAt?_labelQ1 qb _ sj nb hb
        rw [hna, labelQ1_fst_q1]
        rw [hnb, labelQ1_fst_q1]
        have hsa := size_pos ta
        have hsucc := sizeList_take_succ_get cs i si hgi
        have hmono := sizeList_take_mono cs (Nat.succ_le_of_lt hij)
        have hsa' : (1 : Int) ≤ ↑(size ta) := by exact_mod_cast hsa
        have hsucc' : (↑(sizeList (cs.take (i + 1))) : Int)
            = ↑(sizeList (cs.take i)) + ↑(size si) := by exact_mod_cast hsucc
        have hmono' : (↑(sizeList (cs.take (i + 1))) : Int) ≤ ↑(sizeList (cs.take j)) := by
          exact_mod_cast hmono
        simp only [spacing] at *
        omega

theorem labelQ2_cross (c : Int) (t : DNode) {i j : Nat} {qa qb : List Nat} {na nb : DNode}
    (hij : i < j)
    (ha : subAt? (labelQ2 c t).1 (i :: qa) = some na)
    (hb : subAt? (labelQ2 c t).1 (j :: qb) = some nb) :
    na.q2 < nb.q2 := by
  cases t with
  | node jj aa bb kk cc pp nn cs =>
    simp only [subAt?, labelQ2, DNode.children] at ha hb
    rw [labelQ2List_get] at ha hb
    cases hgi : cs.get? i with
    | none => rw [hgi] at ha; simp at ha
    | some si =>
      cases hgj : cs.get? j with
      | none => rw [hgj] at hb; simp at hb
      | some sj =>
        rw [hgi] at ha; rw [hgj] at hb
        simp only [Option.map_some'] at ha hb
        obtain ⟨ca, ta, _, hna, hla, hua, _⟩ := subAt?_labelQ2 qa _ si na ha
        obtain ⟨cb, tb, _, hnb, hlb, _, _⟩ := subAt?_labelQ2 qb _ sj nb hb
        rw [hna, labelQ2_fst_q2]
        rw [hnb, labelQ2_fst_q2]
        have hsb := size_pos tb
        have hsucc := sizeList_take_succ_get cs i si hgi
        have hmono := sizeList_take_mono cs (Nat.succ_le_of_lt hij)
        have hsb' : (1 : Int) ≤ ↑(size tb) := by exact_mod_cast hsb
        have hsucc' : (↑(sizeList (cs.take (i + 1))) : Int)
            = ↑(sizeList (cs.take i)) + ↑(size si) := by exact_mod_cast hsucc
        have hmono' : (↑(sizeList (cs.take (i + 1))) : Int) ≤ ↑(sizeList (cs.take j)) := by
          exact_mod_cast hmono
        simp only [spacing] at *
        omega

theorem path_split (pa : List Nat) : ∀ (pb : List Nat),
    pa = pb ∨ pa <+: pb ∨ pb <+: pa ∨
      ∃ (r : List Nat) (i j : Nat) (qa qb : List Nat),
        i ≠ j ∧ pa = r ++ i :: qa ∧ pb = r ++ j :: qb := by
  induction pa with
  | nil => intro pb; exact Or.inr (Or.inl (List.nil_prefix))
  | cons x pa ih =>
    intro pb
    cases pb with
    | nil => exact Or.inr (Or.inr (Or.inl (List.nil_prefix)))
    | cons y pb =>
      by_cases hxy : x = y
      · subst hxy
        rcases ih pb with heq | hpre | hpre | ⟨r, i, j, qa, qb, hij, hpa, hpb⟩
        · exact Or.inl (by rw [heq])
        · obtain ⟨s, rfl⟩ := hpre
          exact Or.inr (Or.inl ⟨s, by simp⟩)
        · obtain ⟨s, rfl⟩ := hpre
          exact Or.inr (Or.inr (Or.inl ⟨s, by simp⟩))
        · exact Or.inr (Or.inr (Or.inr
            ⟨x :: r, i, j, qa, qb, hij, by simp [hpa], by simp [hpb]⟩))
      · exact Or.inr (Or.inr (Or.inr ⟨[], x, y, pa, pb, hxy, rfl, rfl⟩))

theorem labelQ2_anc (c : Int) (t : DNode) (pa pb : List Nat) (na nb : DNode)
    (ha : subAt? (labelQ2 c t).1 pa = some na)
    (hb : subAt? (labelQ2 c t).1 pb = some nb)
    (hanc : IsAncestorPath pa pb) : nb.q2 < na.q2 := by
  obtain ⟨⟨s, rfl⟩, hne⟩ := hanc
  have hs : s ≠ [] := by
    intro h
    subst h
    exact hne (by simp)
  rw [subAt?_append, ha] at hb
  simp only [Option.some_bind] at hb
  obtain ⟨c₂, m, _, hna, _, _, _⟩ := subAt?_labelQ2 pa c t na ha
  rw [hna] at hb
  obtain ⟨c₀, t₀, _, hnb, _, _, hstrict⟩ := subAt?_labelQ2 s c₂ m nb hb
  have hst := hstrict hs
  rw [hna, labelQ2_fst_q2, hnb, labelQ2_fst_q2]
  simp only [spacing] at *
  omega

theorem labelQ1_anc (c : Int) (t : DNode) (pa pb : List Nat) (ma mb : DNode)
    (ha : subAt? (labelQ1 c t).1 pa = some ma)
    (hb : subAt? (labelQ1 c t).1 pb = some mb)
    (hanc : IsAncestorPath pa pb) : ma.q1 < mb.q1 := by
  obtain ⟨⟨s, rfl⟩, hne⟩ := hanc
  have hs : s ≠ [] := by
    intro h
    subst h
    exact hne (by simp)
  rw [subAt?_append, ha] at hb
  simp only [Option.some_bind] at hb
  obtain ⟨c₁, m, _, hma, _, _, _⟩ := subAt?_labelQ1 pa c t ma ha
  rw [hma] at hb
  obtain ⟨c₀, t₀, _, hmb, _, _, hstrict⟩ := subAt?_labelQ1 s c₁ m mb hb
  have hst := hstrict hs
  rw [hma, labelQ1_fst_q1, hmb, labelQ1_fst_q1]
  simp only [spacing] at *
  omega

/-- Coordinates of a tree whose nodes were appended with DTree.appendChild
in complete-subtree (depth-first) order - labelQ1 0 is the cumulative q1
assignment such a build performs (see labelQ1) - immediately followed by a
recalculateQ2 pass. -/
def dfsBuiltRecalculated (t : DNode) : DNode := recalculateQ2 (labelQ1 0 t).1

theorem dfsBuilt_anc_coords (t : DNode) (pa pb : List Nat) (na nb : DNode)
    (ha : subAt? (dfsBuiltRecalculated t) pa = some na)
    (hb : subAt? (dfsBuiltRecalculated t) pb = some nb)
    (hanc : IsAncestorPath pa pb) : na.q1 < nb.q1 ∧ nb.q2 < na.q2 := by
  simp only [dfsBuiltRecalculated, recalculateQ2] at ha hb
  constructor
  · have hqa := subAt?_labelQ2_q1 pa 0 (labelQ1 0 t).1
    have hqb := subAt?_labelQ2_q1 pb 0 (labelQ1 0 t).1
    rw [ha] at hqa
    rw [hb] at hqb
    cases hsa : subAt? (labelQ1 0 t).1 pa with
    | none => rw [hsa] at hqa; simp at hqa
    | some ma =>
      cases hsb : subAt? (labelQ1 0 t).1 pb with
      | none => rw [hsb] at hqb; simp at hqb
      | some mb =>
        rw [hsa] at hqa
        rw [hsb] at hqb
        simp only [Option.map_some', Option.some.injEq] at hqa hqb
        rw [hqa, hqb]
        exact labelQ1_anc 0 t pa pb ma mb hsa hsb hanc
  · exact labelQ2_anc 0 (labelQ1 0 t).1 pa pb na nb ha hb hanc

/-- C1: in a ContainmentTree built by appending every subtree completely in
depth-first order (so the q1 counter stamps the nodes in pre-order) and
recalculated by recalculateQ2, a node A is a proper ancestor of a node B -
its path is a strict prefix of the path of B - exactly when
A.q1 < B.q1 and A.q2 > B.q2, the containment test of DTreeNode.contains. -/
theorem dfsBuilt_ancestor_iff_coords (t : DNode) (pa pb : List Nat) (na nb : DNode)
    (ha : subAt? (dfsBuiltRecalculated t) pa = some na)
    (hb : subAt? (dfsBuiltRecalculated t) pb = some nb) :
    IsAncestorPath pa pb ↔ (na.q1 < nb.q1 ∧ na.q2 > nb.q2) := by
  constructor
  · exact fun hanc => dfsBuilt_anc_coords t pa pb na nb ha hb hanc
  · rintro ⟨hq1, hq2⟩
    rcases path_split pa pb with heq | hpre | hpre | ⟨r, i, j, qa, qb, hij, rfl, rfl⟩
    · subst heq
      rw [ha] at hb
      injection hb with hb
      subst hb
      exact absurd hq1 (lt_irrefl _)
    · refine ⟨hpre, ?_⟩
      intro heq
      subst heq
      rw [ha] at hb
      injection hb with hb
      subst hb
      exact absurd hq1 (lt_irrefl _)
    · by_cases heq : pb = pa
      · subst heq
        rw [ha] at hb
        injection hb with hb
        subst hb
        exact absurd hq1 (lt_irrefl _)
      · have := (dfsBuilt_anc_coords t pb pa nb na hb ha ⟨hpre, heq⟩).1
        omega
    · simp only [dfsBuiltRecalculated, recalculateQ2] at ha hb
      rw [subAt?_append] at ha hb
      rw [Option.bind_eq_some] at ha hb
      obtain ⟨nr, hnr, hna⟩ := ha
      obtain ⟨nr', hnr', hnb⟩ := hb
      rw [hnr] at hnr'
      injection hnr' with hnr'
      subst hnr'
      rcases Nat.lt_or_ge i j with hij' | hge
      · obtain ⟨cr, mr, _, hnreq, _, _, _⟩ := subAt?_labelQ2 r 0 (labelQ1 0 t).1 nr hnr
        rw [hnreq] at hna hnb
        have := labelQ2_cross cr mr hij' hna hnb
        omega
      · have hji : j < i := by omega
        have hqa := subAt?_labelQ2_q1 (r ++ i :: qa) 0 (labelQ1 0 t).1
        have hqb := subAt?_labelQ2_q1 (r ++ j :: qb) 0 (labelQ1 0 t).1
        rw [subAt?_append, Option.bind_eq_some.mpr ⟨nr, hnr, hna⟩] at hqa
        rw [subAt?_append, Option.bind_eq_some.mpr ⟨nr, hnr, hnb⟩] at hqb
        cases hsa : subAt? (labelQ1 0 t).1 (r ++ i :: qa) with
        | none => rw [hsa] at hqa; simp at hqa
        | some ma =>
          cases hsb : subAt? (labelQ1 0 t).1 (r ++ j :: qb) with
          | none => rw [hsb] at hqb; simp at hqb
          | some mb =>
            rw [hsa] at hqa
            rw [hsb] at hqb
            simp only [Option.map_some', Option.some.injEq] at hqa hqb
            rw [subAt?_append, Option.bind_eq_some] at hsa hsb
            obtain ⟨mra, hmra, hma⟩ := hsa
            obtain ⟨mrb, hmrb, hmb⟩ := hsb
            rw [hmra] at hmrb
            injection hmrb with hmrb
            subst hmrb
            obtain ⟨c1r, sr, _, hmr, _, _, _⟩ := subAt?_labelQ1 r 0 t mra hmra
            rw [hmr] at hma hmb
            have := labelQ1_cross c1r sr hji hmb hma
            omega

/-- C2: after recalculateQ2 on any tree - whatever q1/q2 values the nodes
carried before, so in particular regardless of the insertion order that
produced the tree - every node's q2 exceeds the q2 of each of its proper
descendants; read from the descendant side, every node's q2 is strictly
below the q2 of each of its ancestors. -/
theorem recalculateQ2_orders_ancestors (t : DNode) (pa pb : List Nat) (na nb : DNode)
    (ha : subAt? (recalculateQ2 t) pa = some na)
    (hb : subAt? (recalculateQ2 t) pb = some nb)
    (hanc : IsAncestorPath pa pb) : na.q2 > nb.q2 := by
  simp only [recalculateQ2] at ha hb
  exact labelQ2_anc 0 t pa pb na nb ha hb hanc

/-- Two-leaf sample tree used to instantiate the coordinate theorems. -/
def sampleShape : DNode :=
  .node 1 0 0 "root" none none none
    [.node 2 0 0 "sentence" none none none [], .node 3 0 0 "sentence" none none none []]

/-- Recalculated form of sampleShape after a depth-first build. -/
def sampleBuilt : DNode :=
  .node 1 0 3000 "root" none none none
    [.node 2 1000 1000 "sentence" none none none [],
     .node 3 2000 2000 "sentence" none none none []]

/-- Root of sampleShape after recalculateQ2 alone (q1 fields untouched). -/
def sampleRecalc : DNode :=
  .node 1 0 3000 "root" none none none
    [.node 2 0 1000 "sentence" none none none [],
     .node 3 0 2000 "sentence" none none none []]

theorem dfsBuilt_ancestor_iff_coords_witness :
    subAt? (dfsBuiltRecalculated sampleShape) [] = some sampleBuilt ∧
    subAt? (dfsBuiltRecalculated sampleShape) [0]
        = some (.node 2 1000 1000 "sentence" none none none []) ∧
    (IsAncestorPath [] [0] ↔
      (DNode.q1 sampleBuilt < DNode.q1 (.node 2 1000 1000 "sentence" none none none []) ∧
        DNode.q2 sampleBuilt > DNode.q2 (.node 2 1000 1000 "sentence" none none none []))) :=
  ⟨rfl, rfl, dfsBuilt_ancestor_iff_coords sampleShape [] [0] _ _ rfl rfl⟩

theorem recalculateQ2_orders_ancestors_witness :
    subAt? (recalculateQ2 sampleShape) [] = some sampleRecalc ∧
    subAt? (recalculateQ2 sampleShape) [0]
        = some (.node 2 0 1000 "sentence" none none none []) ∧
    IsAncestorPath [] [0] ∧
    DNode.q2 sampleRecalc > DNode.q2 (.node 2 0 1000 "sentence" none none none []) :=
  ⟨rfl, rfl, ⟨⟨[0], rfl⟩, by simp⟩,
    recalculateQ2_orders_ancestors sampleShape [] [0] _ _ rfl rfl ⟨⟨[0], rfl⟩, by simp⟩⟩

/-- Token normalisation of TokenXref: token.toLowerCase().trim().
toLowerCase maps every character to its lower-case form (ASCII lowering
here, which agrees with the JavaScript behaviour on the ASCII tokens
handled in this file) and trim strips leading and trailing whitespace.
Implemented directly on the character list so that it evaluates by plain
kernel reduction (the String.toLower / String.trim of core Lean are
defined by well-founded recursion on byte positions, which a witness
evaluation cannot unfold). -/
def normalizeToken (tok : String) : String :=
  ⟨((((tok.data.map Char.toLower).dropWhile Char.isWhitespace).reverse.dropWhile
      Char.isWhitespace).reverse)⟩

/-- Cross-reference index TokenXref: a normalized token mapped to the set of
nodes whose content contains it, stored here as node identifiers in
insertion order (the source stores object references in a Set; in a tree
with one node per identifier these play the same role). -/
abbrev Xref := List (String × List Nat)

/-- TokenXref.get: the occurrence list of the normalized token, empty when
the token is absent. -/
def xrefGet (x : Xref) (tok : String) : List Nat :=
  match x.find? (fun e => e.1 == normalizeToken tok) with
  | some e => e.2
  | none => []

mutual

/-- Identifiers of every node of a tree in pre-order: the projection of
DTreeNode.getSubtree to ids. -/
def treeIds : DNode → List Nat
  | .node i _ _ _ _ _ _ cs => i :: treeIdsList cs

/-- Identifiers of every node of a forest in pre-order. -/
def treeIdsList : List DNode → List Nat
  | [] => []
  | c :: cs => treeIds c ++ treeIdsList cs

end

mutual

/-- Path of the node carrying the given identifier, pre-order first match;
none when the identifier is absent.  Nodes are handed around by identifier
where the source hands around object references. -/
def findById? : DNode → Nat → Option (List Nat)
  | .node j _ _ _ _ _ _ cs, i => if j = i then some [] else findByIdList cs i 0

/-- Search of a forest for an identifier, k being the index of the first
tree. -/
def findByIdList : List DNode → Nat → Nat → Option (List Nat)
  | [], _, _ => none
  | c :: cs, i, k =>
    match findById? c i with
    | some p => some (k :: p)
    | none => findByIdList cs i (k + 1)

end

/-- DTreeNode.contains: this.q1 < other.q1 and this.q2 > other.q2. -/
def DNode.contains (a b : DNode) : Bool :=
  decide (a.q1 < b.q1) && decide (a.q2 > b.q2)

/-- Paths of a node and of all its ancestors, deepest first: the order of
DTreeNode.getAncestryPath, which starts at the node itself and follows the
parent references up to the root. -/
def ancestorPaths (p : List Nat) : List (List Nat) := p.inits.reverse

/-- The nodes on the ancestry path, deepest first (getAncestryPath). -/
def ancestryNodes (root : DNode) (p : List Nat) : List DNode :=
  (ancestorPaths p).filterMap (subAt? root)

/-- DTree.findNCD: the same node, the containment shortcuts, then the first
entry of the ancestry path of A whose id lies in the ancestry-id set of B,
with the tree root as the final fallback.  Arguments and result are node
identifiers, resolved through findById? (the source passes and returns
object references; the unreachable arms for an unresolvable identifier
return the first argument). -/
def findNCD (root : DNode) (ia ib : Nat) : Nat :=
  match findById? root ia, findById? root ib with
  | some pa, some pb =>
    match subAt? root pa, subAt? root pb with
    | some na, some nb =>
      if na.id = nb.id then ia
      else if na.contains nb then ia
      else if nb.contains na then ib
      else
        match (ancestryNodes root pa).find?
            (fun m => ((ancestryNodes root pb).map DNode.id).contains m.id) with
        | some m => m.id
        | none => root.id
    | _, _ => ia
  | _, _ => ia

/-- DTree.findNCDMultiple: the root for an empty list, the single entry
alone, otherwise a left fold of findNCD starting from the first entry. -/
def findNCDMultiple (root : DNode) (ids : List Nat) : Nat :=
  match ids with
  | [] => root.id
  | i :: rest => rest.foldl (fun acc j => findNCD root acc j) i

/-- Queryable state of a DTree: the root (owning the whole node structure)
and the token cross-reference index. -/
structure DTreeState where
  root : DNode
  xref : Xref

/-- Map.set on the occurrences map the search loops build: an existing key
keeps its position and receives the new value, a new key is appended. -/
def mapSet : List (String × List Nat) → String → List Nat → List (String × List Nat)
  | [], k, v => [(k, v)]
  | e :: m, k, v => if e.1 == k then (k, v) :: m else e :: mapSet m k v

/-- Map.get on the occurrences map. -/
def mapGet? (m : List (String × List Nat)) (k : String) : Option (List Nat) :=
  (m.find? (fun e => e.1 == k)).map (fun e => e.2)

/-- Loop of DTree.searchAND over the tokens: a token with no occurrences
returns null at once (short-circuit, before any NCD work); otherwise the
occurrence list is recorded under the raw token and appended to allNodes.
After the last token the nearest common dominator of allNodes is returned
with the per-token occurrence map. -/
def searchANDGo (st : DTreeState) : List String → List (String × List Nat) → List Nat →
    Option (Nat × List (String × List Nat))
  | [], occ, allNodes => some (findNCDMultiple st.root allNodes, occ)
  | tk :: rest, occ, allNodes =>
    let nodes := xrefGet st.xref tk
    if nodes = [] then none
    else searchANDGo st rest (mapSet occ tk nodes) (allNodes ++ nodes)

/-- DTree.searchAND. -/
def searchAND (st : DTreeState) (tokens : List String) :
    Option (Nat × List (String × List Nat)) :=
  searchANDGo st tokens [] []

/-- Spread of a JavaScript Set built from a list: the first occurrence of
every element is kept, later duplicates are dropped. -/
def dedupGo : List Nat → List Nat → List Nat
  | _, [] => []
  | seen, x :: xs => if seen.contains x then dedupGo seen xs else x :: dedupGo (seen ++ [x]) xs

/-- Deduplication in first-occurrence order. -/
def dedupKeepFirst (l : List Nat) : List Nat := dedupGo [] l

/-- The context computed for one occurrence node by DTree.searchOR:
n.isLeaf() ? n.parent || n : n.  A leaf is lifted to its parent when it has
one; the root has none (parent is null) and then stays itself; a non-leaf
stays itself.  By identifier: the parent of the node at path p is the node
at the path without its last step.  The unreachable fallback arms for an
identifier absent from the tree return the identifier itself. -/
def liftOcc (root : DNode) (i : Nat) : Nat :=
  match findById? root i with
  | some p =>
    match subAt? root p with
    | some n =>
      if n.children.isEmpty then
        match p with
        | [] => i
        | _ :: _ =>
          match subAt? root p.dropLast with
          | some par => par.id
          | none => i
      else i
    | none => i
  | none => i

/-- Loop of DTree.searchOR: every token's occurrence list is recorded (also
when empty) and collected into allNodes; after the last token every
occurrence is mapped to its context and the result deduplicated in
first-occurrence order. -/
def searchORGo (st : DTreeState) : List String → List (String × List Nat) → List Nat →
    List Nat × List (String × List Nat)
  | [], occ, allNodes => (dedupKeepFirst (allNodes.map (liftOcc st.root)), occ)
  | tk :: rest, occ, allNodes =>
    searchORGo st rest (mapSet occ tk (xrefGet st.xref tk)) (allNodes ++ xrefGet st.xref tk)

/-- DTree.searchOR. -/
def searchOR (st : DTreeState) (tokens : List String) :
    List Nat × List (String × List Nat) :=
  searchORGo st tokens [] []

theorem mapGet?_mapSet_self (m : List (String × List Nat)) (k : String) (v : List Nat) :
    mapGet? (mapSet m k v) k = some v := by
  induction m with
  | nil => simp [mapSet, mapGet?, List.find?]
  | cons e m ih =>
    by_cases h : e.1 = k
    · simp [mapSet, h, mapGet?, List.find?]
    · have hb : (e.1 == k) = false := beq_eq_false_iff_ne.mpr h
      simp only [mapSet, hb, if_false, Bool.false_eq_true]
      simp only [mapGet?, List.find?, hb] at ih ⊢
      exact ih

theorem mapGet?_mapSet_ne (m : List (String × List Nat)) (k k' : String) (v : List Nat)
    (h : k' ≠ k) : mapGet? (mapSet m k v) k' = mapGet? m k' := by
  induction m with
  | nil =>
    have hb : (k == k') = false := beq_eq_false_iff_ne.mpr (Ne.symm h)
    simp [mapSet, mapGet?, List.find?, hb]
  | cons e m ih =>
    by_cases he : e.1 = k
    · have hb : (k == k') = false := beq_eq_false_iff_ne.mpr (Ne.symm h)
      have hb2 : (e.1 == k') = false := beq_eq_false_iff_ne.mpr (by rw [he]; exact Ne.symm h)
      simp [mapSet, he, mapGet?, List.find?, hb, hb2]
    · have hb : (e.1 == k) = false := beq_eq_false_iff_ne.mpr he
      simp only [mapSet, hb, if_false, Bool.false_eq_true]
      simp only [mapGet?, List.find?] at ih ⊢
      cases hc : (e.1 == k') with
      | true => simp
      | false => simpa [hc] using ih

theorem searchANDGo_none (st : DTreeState) (ts : List String) : ∀ (occ : List (String × List Nat))
    (allNodes : List Nat),
    (searchANDGo st ts occ allNodes = none ↔ ∃ tk ∈ ts, xrefGet st.xref tk = []) := by
  induction ts with
  | nil => intro occ allNodes; simp [searchANDGo]
  | cons tk ts ih =>
    intro occ allNodes
    by_cases h : xrefGet st.xref tk = []
    · simp only [searchANDGo, h, if_true]
      constructor
      · intro _; exact ⟨tk, by simp, h⟩
      · intro _; trivial
    · simp only [searchANDGo, h, if_false]
      rw [ih]
      constructor
      · rintro ⟨tk', hmem, hemp⟩
        exact ⟨tk', by simp [hmem], hemp⟩
      · rintro ⟨tk', hmem, hemp⟩
        rcases List.mem_cons.mp hmem with heq | hmem'
        · subst heq; exact absurd hemp h
        · exact ⟨tk', hmem', hemp⟩

theorem searchANDGo_some (st : DTreeState) (ts : List String) : ∀ (occ : List (String × List Nat))
    (allNodes : List Nat) (r : Nat × List (String × List Nat)),
    searchANDGo st ts occ allNodes = some r →
    r.1 = findNCDMultiple st.root (allNodes ++ (ts.map fun tk => xrefGet st.xref tk).flatten) ∧
    (∀ tk ∈ ts, mapGet? r.2 tk = some (xrefGet st.xref tk)) ∧
    (∀ tk, tk ∉ ts → mapGet? r.2 tk = mapGet? occ tk) := by
  induction ts with
  | nil =>
    intro occ allNodes r h
    simp only [searchANDGo, Option.some.injEq] at h
    subst h
    refine ⟨by simp, by simp, fun tk _ => rfl⟩
  | cons tk ts ih =>
    intro occ allNodes r h
    by_cases hn : xrefGet st.xref tk = []
    · simp [searchANDGo, hn] at h
    · simp only [searchANDGo, hn, if_false] at h
      obtain ⟨h1, h2, h3⟩ := ih _ _ _ h
      refine ⟨?_, ?_, ?_⟩
      · rw [h1]
        simp [List.append_assoc]
      · intro tk' hmem
        by_cases hts : tk' ∈ ts
        · exact h2 tk' hts
        · rcases List.mem_cons.mp hmem with heq | hmem'
          · subst heq
            rw [h3 tk' hts, mapGet?_mapSet_self]
          · exact absurd hmem' hts
      · intro tk' hmem
        have hts : tk' ∉ ts := fun hc => hmem (List.mem_cons.mpr (Or.inr hc))
        have hne : tk' ≠ tk := fun hc => hmem (List.mem_cons.mpr (Or.inl hc))
        rw [h3 tk' hts, mapGet?_mapSet_ne _ _ _ _ hne]

/-- C3: searchAND returns no result exactly when some token of the query has
an empty occurrence set - the benign AND miss, distinct from every thrown
error and produced before any NCD computation - and on success the returned
context is the nearest common dominator of the concatenation of all the
tokens' occurrence sets, handed back together with the per-token occurrence
map. -/
theorem searchAND_characterized (st : DTreeState) (tokens : List String) :
    (searchAND st tokens = none ↔ ∃ tk ∈ tokens, xrefGet st.xref tk = []) ∧
    (∀ r, searchAND st tokens = some r →
      r.1 = findNCDMultiple st.root ((tokens.map fun tk => xrefGet st.xref tk).flatten) ∧
      ∀ tk ∈ tokens, mapGet? r.2 tk = some (xrefGet st.xref tk)) := by
  constructor
  · exact searchANDGo_none st tokens [] []
  · intro r h
    obtain ⟨h1, h2, _⟩ := searchANDGo_some st tokens [] [] r h
    exact ⟨by simpa using h1, h2⟩

/-- Sample query state: the recalculated two-leaf tree with two indexed
tokens. -/
def sampleState : DTreeState := ⟨sampleBuilt, [("alpha", [2]), ("beta", [2, 3])]⟩

theorem searchAND_characterized_witness :
    searchAND sampleState ["alpha", "beta"]
        = some (1, [("alpha", [2]), ("beta", [2, 3])]) ∧
    (1 : Nat) = findNCDMultiple sampleState.root
        ((["alpha", "beta"].map fun tk => xrefGet sampleState.xref tk).flatten) ∧
    mapGet? [("alpha", [2]), ("beta", [2, 3])] "beta" = some (xrefGet sampleState.xref "beta") :=
  ⟨rfl,
    ((searchAND_characterized sampleState ["alpha", "beta"]).2 _ rfl).1,
    ((searchAND_characterized sampleState ["alpha", "beta"]).2 _ rfl).2 "beta" (by simp)⟩

theorem searchORGo_parts (st : DTreeState) (ts : List String) :
    ∀ (occ : List (String × List Nat)) (allNodes : List Nat),
    (searchORGo st ts occ allNodes).1
      = dedupKeepFirst
          ((allNodes ++ (ts.map fun tk => xrefGet st.xref tk).flatten).map (liftOcc st.root)) ∧
    (∀ tk ∈ ts, mapGet? (searchORGo st ts occ allNodes).2 tk = some (xrefGet st.xref tk)) ∧
    (∀ tk, tk ∉ ts → mapGet? (searchORGo st ts occ allNodes).2 tk = mapGet? occ tk) := by
  induction ts with
  | nil =>
    intro occ allNodes
    refine ⟨by simp [searchORGo], by simp, fun tk _ => rfl⟩
  | cons tk ts ih =>
    intro occ allNodes
    obtain ⟨h1, h2, h3⟩ := ih (mapSet occ tk (xrefGet st.xref tk))
      (allNodes ++ xrefGet st.xref tk)
    refine ⟨?_, ?_, ?_⟩
    · rw [show searchORGo st (tk :: ts) occ allNodes
          = searchORGo st ts (mapSet occ tk (xrefGet st.xref tk))
              (allNodes ++ xrefGet st.xref tk) from rfl]
      rw [h1]
      simp [List.append_assoc]
    · intro tk' hmem
      by_cases hts : tk' ∈ ts
      · exact h2 tk' hts
      · rcases List.mem_cons.mp hmem with heq | hmem'
        · subst heq
          rw [show searchORGo st (tk' :: ts) occ allNodes
              = searchORGo st ts (mapSet occ tk' (xrefGet st.xref tk'))
                  (allNodes ++ xrefGet st.xref tk') from rfl]
          rw [h3 tk' hts, mapGet?_mapSet_self]
        · exact absurd hmem' hts
    · intro tk' hmem
      have hts : tk' ∉ ts := fun hc => hmem (List.mem_cons.mpr (Or.inr hc))
      have hne : tk' ≠ tk := fun hc => hmem (List.mem_cons.mpr (Or.inl hc))
      rw [show searchORGo st (tk :: ts) occ allNodes
          = searchORGo st ts (mapSet occ tk (xrefGet st.xref tk))
              (allNodes ++ xrefGet st.xref tk) from rfl]
      rw [h3 tk' hts, mapGet?_mapSet_ne _ _ _ _ hne]

/-- C9 as amended: searchOR returns the deduplicated (first-occurrence
order) context list obtained from the occurrence nodes of the tokens by
replacing every leaf occurrence that has a parent by that parent, keeping a
parentless leaf occurrence (the root) as itself, and keeping every non-leaf
occurrence as itself - liftOcc spells out exactly this - alongside the raw
per-token occurrence sets. -/
theorem searchOR_characterized (st : DTreeState) (tokens : List String) :
    (searchOR st tokens).1
      = dedupKeepFirst
          (((tokens.map fun tk => xrefGet st.xref tk).flatten).map (liftOcc st.root)) ∧
    ∀ tk ∈ tokens, mapGet? (searchOR st tokens).2 tk = some (xrefGet st.xref tk) := by
  obtain ⟨h1, h2, _⟩ := searchORGo_parts st tokens [] []
  exact ⟨by simpa using h1, h2⟩

theorem searchOR_characterized_witness :
    searchOR sampleState ["beta"] = ([1], [("beta", [2, 3])]) ∧
    (searchOR sampleState ["beta"]).1
      = dedupKeepFirst (((["beta"].map fun tk => xrefGet sampleState.xref tk).flatten).map
          (liftOcc sampleState.root)) ∧
    mapGet? (searchOR sampleState ["beta"]).2 "beta" = some (xrefGet sampleState.xref "beta") :=
  ⟨rfl, (searchOR_characterized sampleState ["beta"]).1,
    (searchOR_characterized sampleState ["beta"]).2 "beta" (by simp)⟩

/-- Statement of claim C9 as written: some context assignment f on the
occurrence nodes replaces every leaf occurrence by its parent - the claim
presumes the parent exists - and keeps every non-leaf occurrence, the
returned context list being the deduplicated image of the occurrence nodes
under f, alongside the raw per-token occurrence sets.  Stated as a
predicate so that its failure on the code can be exhibited. -/
def SearchOrClaim (st : DTreeState) (tokens : List String)
    (out : List Nat × List (String × List Nat)) : Prop :=
  ∃ f : Nat → Nat,
    (∀ i p n, i ∈ (tokens.map fun tk => xrefGet st.xref tk).flatten →
      findById? st.root i = some p → subAt? st.root p = some n →
      (n.children = [] →
        p ≠ [] ∧ ∃ par, subAt? st.root p.dropLast = some par ∧ f i = par.id) ∧
      (n.children ≠ [] → f i = i)) ∧
    out.1 = dedupKeepFirst (((tokens.map fun tk => xrefGet st.xref tk).flatten).map f) ∧
    (∀ tk ∈ tokens, mapGet? out.2 tk = some (xrefGet st.xref tk))

/-- Root-only tree whose root content was indexed: the state on which claim
C9 fails. -/
def rootOnlyState : DTreeState :=
  ⟨.node 1 0 1000 "root" none none none [], [("hello", [1])]⟩

/-- C9 counterexample: on a tree consisting only of an indexed root, the
single occurrence node is a leaf without a parent; searchOR keeps it - the
source falls back through n.parent || n - so the context list is [1],
while the claim as stated would have every leaf occurrence replaced by its
parent, which does not exist here. -/
theorem searchOR_claim_fails_on_root_leaf :
    searchOR rootOnlyState ["hello"] = ([1], [("hello", [1])]) ∧
    ¬ SearchOrClaim rootOnlyState ["hello"] (searchOR rootOnlyState ["hello"]) := by
  refine ⟨rfl, ?_⟩
  rintro ⟨f, hf, -, -⟩
  have h := hf 1 [] (.node 1 0 1000 "root" none none none [])
    (by decide) rfl rfl
  exact (h.1 rfl).1 rfl

/-- Rewrite of the prevSibling reference of a node (the assignment
node.nextSibling.prevSibling = node.prevSibling acts on the right
neighbour). -/
def withPrevSibling (v : Option Nat) : DNode → DNode
  | .node i a b k ct _ ns cs => .node i a b k ct v ns cs

/-- Rewrite of the nextSibling reference of a node (the assignment
node.prevSibling.nextSibling = node.nextSibling acts on the left
neighbour). -/
def withNextSibling (v : Option Nat) : DNode → DNode
  | .node i a b k ct ps _ cs => .node i a b k ct ps v cs

/-- Repair of the right neighbour of a removed node: its prevSibling
takes the removed node's prevSibling. -/
def patchHead : List DNode → Option Nat → List DNode
  | [], _ => []
  | d :: ds, v => withPrevSibling v d :: ds

/-- Removal of the child at an index from a children list together with the
sibling repairs of DTree.removeNode: the left neighbour's nextSibling takes
the removed node's nextSibling and the right neighbour's prevSibling its
prevSibling.  The source reaches the two neighbours through the removed
node's own sibling references; in a tree whose sibling chain is consistent
(siblingWF below) those references are exactly the positional neighbours
patched here.  An out-of-range index leaves the list unchanged (the source
is only ever called with an actual child of the list). -/
def removeChildAt : List DNode → Nat → List DNode
  | [], _ => []
  | c :: cs, 0 => patchHead cs c.prevSibling
  | c :: cs, 1 =>
    match cs with
    | [] => [c]
    | d :: ds => withNextSibling d.nextSibling c :: patchHead ds d.prevSibling
  | c :: cs, i + 2 => c :: removeChildAt cs (i + 1)

/-- Subtree removal at a nonempty path: descend to the parent of the node
to remove, then splice it out of that children list (the source splices
parent.children at indexOf(node) and repairs the sibling links). -/
def removeAt : DNode → List Nat → DNode
  | t, [] => t
  | .node j a b k ct ps ns cs, [i] => .node j a b k ct ps ns (removeChildAt cs i)
  | .node j a b k ct ps ns cs, i :: p =>
    match cs.get? i with
    | some ci => .node j a b k ct ps ns (cs.set i (removeAt ci p))
    | none => .node j a b k ct ps ns cs

/-- Purge performed by DTree.removeNode on the cross-reference index: the
source runs xref.removeNode(n) for every node n of the removed subtree,
each call deleting n from every token's occurrence set; the net effect is
this filter. -/
def purgeIds (bad : List Nat) (x : Xref) : Xref :=
  x.map (fun e => (e.1, e.2.filter (fun j => !(bad.contains j))))

/-- Error thrown by DTree.removeNode on the root ("Root düğüm silinemez"). -/
inductive TreeError where
  | rootRemovalForbidden
deriving DecidableEq, Repr

/-- DTree.removeNode: a node with no parent - within a tree, exactly the
node at path [] - is rejected with the root-removal error before any
mutation, so the failing call leaves the tree untouched; any other node is
spliced out of its parent's children with the sibling repairs and every
node of its subtree is purged from the cross-reference index.  The nodeMap
bookkeeping of the source is not modelled (no claim concerns getNode); a
path that resolves to no node cannot arise in the source, which receives a
node of the tree, and returns the state unchanged here. -/
def removeNode (st : DTreeState) (p : List Nat) : Except TreeError DTreeState :=
  match p with
  | [] => .error .rootRemovalForbidden
  | _ :: _ =>
    match subAt? st.root p with
    | some n => .ok ⟨removeAt st.root p, purgeIds (treeIds n) st.xref⟩
    | none => .ok st

/-- Consistency of one sibling chain: each element points back to its left
neighbour (none for the first) and forward to its right neighbour (none
for the last). -/
def chainOK : Option Nat → List DNode → Bool
  | _, [] => true
  | prev, c :: cs =>
    decide (c.prevSibling = prev) && decide (c.nextSibling = (cs.head?).map DNode.id)
      && chainOK (some c.id) cs

mutual

/-- Sibling chains of every node of the tree are consistent - the state
DTree.addNode establishes and maintains. -/
def siblingWF : DNode → Bool
  | .node _ _ _ _ _ _ _ cs => chainOK none cs && siblingWFList cs

/-- Sibling consistency of every tree of a forest. -/
def siblingWFList : List DNode → Bool
  | [] => true
  | c :: cs => siblingWF c && siblingWFList cs

end

theorem withPrevSibling_fields (v : Option Nat) (t : DNode) :
    (withPrevSibling v t).id = t.id ∧ (withPrevSibling v t).prevSibling = v ∧
    (withPrevSibling v t).nextSibling = t.nextSibling ∧
    treeIds (withPrevSibling v t) = treeIds t ∧
    siblingWF (withPrevSibling v t) = siblingWF t := by
  cases t
  exact ⟨rfl, rfl, rfl, rfl, rfl⟩

theorem withNextSibling_fields (v : Option Nat) (t : DNode) :
    (withNextSibling v t).id = t.id ∧ (withNextSibling v t).prevSibling = t.prevSibling ∧
    (withNextSibling v t).nextSibling = v ∧
    treeIds (withNextSibling v t) = treeIds t ∧
    siblingWF (withNextSibling v t) = siblingWF t := by
  cases t
  exact ⟨rfl, rfl, rfl, rfl, rfl⟩

theorem chainOK_removeChildAt (cs : List DNode) : ∀ (i : Nat) (prev : Option Nat),
    chainOK prev cs = true → chainOK prev (removeChildAt cs i) = true := by
  induction cs with
  | nil => intro i prev _; simp [removeChildAt, chainOK]
  | cons c cs ih =>
    intro i prev h
    simp only [chainOK, Bool.and_eq_true, decide_eq_true_eq] at h
    obtain ⟨⟨hp, hn⟩, hrest⟩ := h
    match i with
    | 0 =>
      cases cs with
      | nil => simp [removeChildAt, patchHead, chainOK]
      | cons d ds =>
        simp only [chainOK, Bool.and_eq_true, decide_eq_true_eq] at hrest
        obtain ⟨⟨hdp, hdn⟩, hrest2⟩ := hrest
        obtain ⟨hid, hpv, hnx, _, _⟩ := withPrevSibling_fields c.prevSibling d
        simp only [removeChildAt, patchHead, chainOK, Bool.and_eq_true, decide_eq_true_eq]
        refine ⟨⟨?_, ?_⟩, ?_⟩
        · rw [hpv, hp]
        · rw [hnx, hdn]
        · rw [hid]; exact hrest2
    | 1 =>
      cases cs with
      | nil =>
        simp only [List.head?] at hn
        simp [removeChildAt, chainOK, hp, hn]
      | cons d ds =>
        simp only [chainOK, Bool.and_eq_true, decide_eq_true_eq] at hrest
        obtain ⟨⟨hdp, hdn⟩, hrest2⟩ := hrest
        obtain ⟨hid, hpv, hnx, _, _⟩ := withNextSibling_fields d.nextSibling c
        simp only [removeChildAt, patchHead, chainOK]
        cases ds with
        | nil =>
          simp only [List.head?, Option.map_none'] at hdn
          simp only [chainOK, Bool.and_eq_true, decide_eq_true_eq]
          exact ⟨⟨by rw [hpv, hp], by rw [hnx, hdn]; rfl⟩, trivial⟩
        | cons e es =>
          simp only [chainOK, Bool.and_eq_true, decide_eq_true_eq] at hrest2
          obtain ⟨⟨hep, hen⟩, hrest3⟩ := hrest2
          obtain ⟨heid, hepv, henx, _, _⟩ := withPrevSibling_fields d.prevSibling e
          simp only [chainOK, Bool.and_eq_true, decide_eq_true_eq]
          refine ⟨⟨by rw [hpv, hp], ?_⟩, ⟨⟨?_, ?_⟩, ?_⟩⟩
          · rw [hnx, hdn]
            simp [List.head?, heid]
          · rw [hepv, hdp, hid]
          · rw [henx, hen]
          · rw [heid]; exact hrest3
    | i + 2 =>
      have hhead : (removeChildAt cs (i + 1)).head?.map DNode.id = cs.head?.map DNode.id := by
        cases cs with
        | nil => rfl
        | cons d ds =>
          match i with
          | 0 =>
            cases ds with
            | nil => rfl
            | cons e es =>
              obtain ⟨hid, _, _, _, _⟩ := withNextSibling_fields e.nextSibling d
              simp [removeChildAt, List.head?, hid]
          | i + 1 => rfl
      simp only [removeChildAt, chainOK, Bool.and_eq_true, decide_eq_true_eq]
      exact ⟨⟨hp, by rw [hn, hhead]⟩, ih (i + 1) (some c.id) hrest⟩

theorem siblingWFList_removeChildAt (cs : List DNode) : ∀ (i : Nat),
    siblingWFList cs = true → siblingWFList (removeChildAt cs i) = true := by
  induction cs with
  | nil => intro i _; simp [removeChildAt, siblingWFList]
  | cons c cs ih =>
    intro i h
    simp only [siblingWFList, Bool.and_eq_true] at h
    obtain ⟨hc, hrest⟩ := h
    match i with
    | 0 =>
      cases cs with
      | nil => simp [removeChildAt, patchHead, siblingWFList]
      | cons d ds =>
        simp only [siblingWFList, Bool.and_eq_true] at hrest
        obtain ⟨hd, hrest2⟩ := hrest
        obtain ⟨_, _, _, _, hwf⟩ := withPrevSibling_fields c.prevSibling d
        simp only [removeChildAt, patchHead, siblingWFList, Bool.and_eq_true]
        exact ⟨by rw [hwf]; exact hd, hrest2⟩
    | 1 =>
      cases cs with
      | nil => simp [removeChildAt, siblingWFList, hc]
      | cons d ds =>
        simp only [siblingWFList, Bool.and_eq_true] at hrest
        obtain ⟨hd, hrest2⟩ := hrest
        obtain ⟨_, _, _, _, hwfc⟩ := withNextSibling_fields d.nextSibling c
        simp only [removeChildAt, patchHead, siblingWFList, Bool.and_eq_true]
        refine ⟨by rw [hwfc]; exact hc, ?_⟩
        cases ds with
        | nil => simp [siblingWFList]
        | cons e es =>
          simp only [siblingWFList, Bool.and_eq_true] at hrest2
          obtain ⟨he, hrest3⟩ := hrest2
          obtain ⟨_, _, _, _, hwfe⟩ := withPrevSibling_fields d.prevSibling e
          simp only [siblingWFList, Bool.and_eq_true]
          exact ⟨by rw [hwfe]; exact he, hrest3⟩
    | i + 2 =>
      simp only [removeChildAt, siblingWFList, Bool.and_eq_true]
      exact ⟨hc, ih (i + 1) hrest⟩

theorem removeAt_nil (t : DNode) : removeAt t [] = t := by
  cases t
  rfl

theorem removeAt_root_fields (p : List Nat) (t : DNode) :
    (removeAt t p).id = t.id ∧ (removeAt t p).prevSibling = t.prevSibling ∧
    (removeAt t p).nextSibling = t.nextSibling := by
  cases p with
  | nil => rw [removeAt_nil]; exact ⟨rfl, rfl, rfl⟩
  | cons i p =>
    cases p with
    | nil => cases t; exact ⟨rfl, rfl, rfl⟩
    | cons i2 p2 =>
      cases t with
      | node j a b k ct ps ns cs =>
        simp only [removeAt]
        cases hg : cs.get? i with
        | none => exact ⟨rfl, rfl, rfl⟩
        | some ci => exact ⟨rfl, rfl, rfl⟩

theorem chainOK_set (cs : List DNode) : ∀ (i : Nat) (ci u : DNode) (prev : Option Nat),
    cs.get? i = some ci → u.id = ci.id → u.prevSibling = ci.prevSibling →
    u.nextSibling = ci.nextSibling →
    chainOK prev cs = true → chainOK prev (cs.set i u) = true := by
  induction cs with
  | nil => intro i ci u prev h; simp at h
  | cons c cs ih =>
    intro i ci u prev hg hid hpv hnx h
    simp only [chainOK, Bool.and_eq_true, decide_eq_true_eq] at h
    obtain ⟨⟨hp, hn⟩, hrest⟩ := h
    cases i with
    | zero =>
      simp only [List.get?_cons_zero, Option.some.injEq] at hg
      subst hg
      simp only [List.set_cons_zero, chainOK, Bool.and_eq_true, decide_eq_true_eq]
      exact ⟨⟨by rw [hpv]; exact hp, by rw [hnx]; exact hn⟩, by rw [hid]; exact hrest⟩
    | succ i =>
      simp only [List.get?_cons_succ] at hg
      simp only [List.set_cons_succ, chainOK, Bool.and_eq_true, decide_eq_true_eq]
      refine ⟨⟨hp, ?_⟩, ih i ci u (some c.id) hg hid hpv hnx hrest⟩
      rw [hn]
      cases cs with
      | nil => simp at hg
      | cons d ds =>
        cases i with
        | zero =>
          simp only [List.get?_cons_zero, Option.some.injEq] at hg
          subst hg
          simp [List.set_cons_zero, List.head?, hid]
        | succ i => simp [List.set_cons_succ, List.head?]

theorem siblingWFList_get (cs : List DNode) : ∀ (i : Nat) (ci : DNode),
    cs.get? i = some ci → siblingWFList cs = true → siblingWF ci = true := by
  induction cs with
  | nil => intro i ci h; simp at h
  | cons c cs ih =>
    intro i ci hg h
    simp only [siblingWFList, Bool.and_eq_true] at h
    cases i with
    | zero =>
      simp only [List.get?_cons_zero, Option.some.injEq] at hg
      subst hg
      exact h.1
    | succ i =>
      simp only [List.get?_cons_succ] at hg
      exact ih i ci hg h.2

theorem siblingWFList_set (cs : List DNode) : ∀ (i : Nat) (u : DNode),
    siblingWF u = true → siblingWFList cs = true → siblingWFList (cs.set i u) = true := by
  induction cs with
  | nil => intro i u _ _; simp [siblingWFList]
  | cons c cs ih =>
    intro i u hu h
    simp only [siblingWFList, Bool.and_eq_true] at h
    cases i with
    | zero =>
      simp only [List.set_cons_zero, siblingWFList, Bool.and_eq_true]
      exact ⟨hu, h.2⟩
    | succ i =>
      simp only [List.set_cons_succ, siblingWFList, Bool.and_eq_true]
      exact ⟨h.1, ih i u hu h.2⟩

theorem siblingWF_removeAt (p : List Nat) : ∀ (t : DNode),
    siblingWF t = true → siblingWF (removeAt t p) = true := by
  induction p with
  | nil => intro t h; rw [removeAt_nil]; exact h
  | cons i p ih =>
    intro t h
    cases p with
    | nil =>
      cases t with
      | node j a b k ct ps ns cs =>
        simp only [removeAt, siblingWF, Bool.and_eq_true] at h ⊢
        exact ⟨chainOK_removeChildAt cs i none h.1, siblingWFList_removeChildAt cs i h.2⟩
    | cons i2 p2 =>
      cases t with
      | node j a b k ct ps ns cs =>
        simp only [removeAt]
        cases hg : cs.get? i with
        | none => exact h
        | some ci =>
          simp only [siblingWF, Bool.and_eq_true] at h ⊢
          obtain ⟨hch, hlist⟩ := h
          have hci := siblingWFList_get cs i ci hg hlist
          have hrec := ih ci hci
          obtain ⟨hid, hpv, hnx⟩ := removeAt_root_fields (i2 :: p2) ci
          exact ⟨chainOK_set cs i ci _ none hg hid hpv hnx hch,
            siblingWFList_set cs i _ hrec hlist⟩

theorem treeIdsList_patchHead (ds : List DNode) (v : Option Nat) :
    treeIdsList (patchHead ds v) = treeIdsList ds := by
  cases ds with
  | nil => rfl
  | cons d ds =>
    obtain ⟨_, _, _, hids, _⟩ := withPrevSibling_fields v d
    simp [patchHead, treeIdsList, hids]

theorem treeIdsList_removeChildAt (cs : List DNode) : ∀ (i : Nat) (ci : DNode),
    cs.get? i = some ci →
    treeIdsList (removeChildAt cs i)
      = treeIdsList (cs.take i) ++ treeIdsList (cs.drop (i + 1)) := by
  induction cs with
  | nil => intro i ci h; simp at h
  | cons c cs ih =>
    intro i ci hg
    match i with
    | 0 =>
      simp [removeChildAt, treeIdsList_patchHead, treeIdsList]
    | 1 =>
      cases cs with
      | nil => simp at hg
      | cons d ds =>
        obtain ⟨_, _, _, hids, _⟩ := withNextSibling_fields d.nextSibling c
        simp [removeChildAt, treeIdsList, hids, treeIdsList_patchHead]
    | i + 2 =>
      simp only [List.get?_cons_succ] at hg
      simp only [removeChildAt, treeIdsList, List.take_succ_cons, List.drop_succ_cons]
      rw [ih (i + 1) ci hg]
      simp [List.append_assoc]

theorem treeIdsList_decompose (cs : List DNode) : ∀ (i : Nat) (ci : DNode),
    cs.get? i = some ci →
    treeIdsList cs
      = treeIdsList (cs.take i) ++ (treeIds ci ++ treeIdsList (cs.drop (i + 1))) := by
  induction cs with
  | nil => intro i ci h; simp at h
  | cons c cs ih =>
    intro i ci hg
    cases i with
    | zero =>
      simp only [List.get?_cons_zero, Option.some.injEq] at hg
      subst hg
      simp [treeIdsList]
    | succ i =>
      simp only [List.get?_cons_succ] at hg
      simp only [treeIdsList, List.take_succ_cons, List.drop_succ_cons]
      rw [ih i ci hg]
      simp [List.append_assoc]

theorem treeIdsList_set (cs : List DNode) : ∀ (i : Nat) (u ci : DNode),
    cs.get? i = some ci →
    treeIdsList (cs.set i u)
      = treeIdsList (cs.take i) ++ (treeIds u ++ treeIdsList (cs.drop (i + 1))) := by
  induction cs with
  | nil => intro i u ci h; simp at h
  | cons c cs ih =>
    intro i u ci hg
    cases i with
    | zero =>
      simp [List.set_cons_zero, treeIdsList]
    | succ i =>
      simp only [List.get?_cons_succ] at hg
      simp only [List.set_cons_succ, treeIdsList, List.take_succ_cons, List.drop_succ_cons]
      rw [ih i u ci hg]
      simp [List.append_assoc]

theorem treeIdsList_of_mem (cs : List DNode) : ∀ (c : DNode), c ∈ cs →
    ∀ x, x ∈ treeIds c → x ∈ treeIdsList cs := by
  induction cs with
  | nil => intro c h; simp at h
  | cons d cs ih =>
    intro c hmem x hx
    rcases List.mem_cons.mp hmem with heq | hmem'
    · subst heq
      simp only [treeIdsList, List.mem_append]
      exact Or.inl hx
    · simp only [treeIdsList, List.mem_append]
      exact Or.inr (ih c hmem' x hx)

theorem treeIds_subAt (p : List Nat) : ∀ (t n : DNode), subAt? t p = some n →
    ∀ x, x ∈ treeIds n → x ∈ treeIds t := by
  induction p with
  | nil =>
    intro t n h
    simp only [subAt?, Option.some.injEq] at h
    subst h
    exact fun x hx => hx
  | cons i p ih =>
    intro t n h x hx
    cases t with
    | node j a b k ct ps ns cs =>
      simp only [subAt?, DNode.children] at h
      cases hg : cs.get? i with
      | none => rw [hg] at h; simp at h
      | some c =>
        rw [hg] at h
        have hmem : c ∈ cs := List.get?_mem hg
        have hx' := ih c n h x hx
        simp only [treeIds, List.mem_cons]
        exact Or.inr (treeIdsList_of_mem cs c hmem x hx')

theorem removeAt_removes (p : List Nat) : ∀ (t n : DNode), p ≠ [] → subAt? t p = some n →
    (treeIds t).Nodup → ∀ x ∈ treeIds n, x ∉ treeIds (removeAt t p) := by
  induction p with
  | nil => intro t n hne; exact absurd rfl hne
  | cons i p ih =>
    intro t n _ hsub hnd x hx
    cases t with
    | node j a b k ct ps ns cs =>
      simp only [subAt?, DNode.children] at hsub
      cases hg : cs.get? i with
      | none => rw [hg] at hsub; simp at hsub
      | some ci =>
        rw [hg] at hsub
        have hxci : x ∈ treeIds ci := treeIds_subAt p ci n hsub x hx
        have hdec := treeIdsList_decompose cs i ci hg
        simp only [treeIds] at hnd
        rw [List.nodup_cons] at hnd
        obtain ⟨hj, hndl⟩ := hnd
        rw [hdec] at hndl hj
        rw [List.nodup_append] at hndl
        obtain ⟨hndTake, hndMid, hdisj⟩ := hndl
        rw [List.nodup_append] at hndMid
        obtain ⟨hndCi, hndDrop, hdisj2⟩ := hndMid
        have hxj : x ≠ j := by
          intro hxe
          exact hj (List.mem_append.mpr (Or.inr (List.mem_append.mpr (Or.inl (hxe ▸ hxci)))))
        have hxTake : x ∉ treeIdsList (cs.take i) := fun hmem =>
          hdisj hmem (List.mem_append.mpr (Or.inl hxci))
        have hxDrop : x ∉ treeIdsList (cs.drop (i + 1)) := fun hmem => hdisj2 hxci hmem
        cases p with
        | nil =>
          simp only [subAt?, Option.some.injEq] at hsub
          simp only [removeAt, treeIds]
          rw [treeIdsList_removeChildAt cs i ci hg]
          intro hmem
          rcases List.mem_cons.mp hmem with heq | hmem'
          · exact hxj heq
          · rcases List.mem_append.mp hmem' with h1 | h2
            · exact hxTake h1
            · exact hxDrop h2
        | cons i2 p2 =>
          simp only [removeAt, hg, treeIds]
          rw [treeIdsList_set cs i (removeAt ci (i2 :: p2)) ci hg]
          have hrec : x ∉ treeIds (removeAt ci (i2 :: p2)) :=
            ih ci n (by simp) hsub hndCi x hx
          intro hmem
          rcases List.mem_cons.mp hmem with heq | hmem'
          · exact hxj heq
          · rcases List.mem_append.mp hmem' with h1 | h2
            · exact hxTake h1
            · rcases List.mem_append.mp h2 with h3 | h4
              · exact hrec h3
              · exact hxDrop h4

theorem mem_xrefGet_purge (xr : Xref) : ∀ (bad : List Nat) (tok : String) (x : Nat),
    x ∈ xrefGet (purgeIds bad xr) tok → x ∉ bad := by
  induction xr with
  | nil => intro bad tok x h; simp [purgeIds, xrefGet, List.find?] at h
  | cons e xr ih =>
    intro bad tok x h
    simp only [purgeIds, List.map_cons, xrefGet, List.find?] at h
    cases hbeq : (e.1 == normalizeToken tok) with
    | true =>
      rw [hbeq] at h
      simp only [Option.some.injEq] at h
      have hx : x ∈ e.2.filter (fun j => !(bad.contains j)) := h
      have := List.of_mem_filter hx
      simp only [Bool.not_eq_true'] at this
      intro hxbad
      simp at this
      exact this hxbad
    | false =>
      rw [hbeq] at h
      exact ih bad tok x (by simpa [purgeIds, xrefGet] using h)

/-- C8: removeNode rejects the tree's root with the root-removal error -
thrown before any mutation, so the failing call leaves the tree and index
untouched - and for every non-root node of a tree with distinct node ids
it returns a state in which no node of the removed subtree remains anywhere
in the tree (the node is detached from its parent), the sibling chains stay
consistent when they were consistent before (the links around the removed
node are repaired), and no token lookup in the purged cross-reference index
returns any node of the removed subtree. -/
theorem removeNode_behavior (st : DTreeState) (p : List Nat) (n : DNode) :
    removeNode st [] = .error .rootRemovalForbidden ∧
    (p ≠ [] → subAt? st.root p = some n → (treeIds st.root).Nodup →
      ∃ st', removeNode st p = .ok st' ∧
        (∀ x ∈ treeIds n, x ∉ treeIds st'.root) ∧
        (siblingWF st.root = true → siblingWF st'.root = true) ∧
        (∀ tok x, x ∈ xrefGet st'.xref tok → x ∉ treeIds n)) := by
  constructor
  · rfl
  · intro hp hsub hnd
    cases p with
    | nil => exact absurd rfl hp
    | cons i ptail =>
      refine ⟨⟨removeAt st.root (i :: ptail), purgeIds (treeIds n) st.xref⟩, ?_, ?_, ?_, ?_⟩
      · simp [removeNode, hsub]
      · exact removeAt_removes (i :: ptail) st.root n (by simp) hsub hnd
      · intro hwf
        exact siblingWF_removeAt (i :: ptail) st.root hwf
      · intro tok x hmem
        exact mem_xrefGet_purge st.xref (treeIds n) tok x hmem

/-- Sample state with consistent sibling links and an indexed token per
leaf, used to instantiate the removal theorem. -/
def sampleSibState : DTreeState :=
  ⟨.node 1 0 3000 "root" none none none
      [.node 2 1000 1000 "sentence" none none (some 3) [],
       .node 3 2000 2000 "sentence" none (some 2) none []],
    [("alpha", [2]), ("beta", [3])]⟩

theorem removeNode_behavior_witness :
    subAt? sampleSibState.root [0]
        = some (.node 2 1000 1000 "sentence" none none (some 3) []) ∧
    (treeIds sampleSibState.root).Nodup ∧
    (∃ st', removeNode sampleSibState [0] = .ok st' ∧
      (∀ x ∈ treeIds (DNode.node 2 1000 1000 "sentence" none none (some 3) []),
        x ∉ treeIds st'.root) ∧
      (siblingWF sampleSibState.root = true → siblingWF st'.root = true) ∧
      (∀ tok x, x ∈ xrefGet st'.xref tok →
        x ∉ treeIds (DNode.node 2 1000 1000 "sentence" none none (some 3) []))) :=
  ⟨rfl, by decide,
    (removeNode_behavior sampleSibState [0] _).2 (by simp) rfl (by decide)⟩

end DT

namespace Ctg

/-- Regression values of the repository's own test suite
(tests/ctgEngine.test.js), evaluated on the embedding: below 2^31 the
bitwise loop agrees with the documented odd part and parent rules, the
ancestry chains match, and the validation errors fire exactly for
non-positive inputs. -/
theorem engine_matches_test_suite :
    getOddPart 64 12 = .ok 3 ∧ getOddPart 64 8 = .ok 1 ∧ getOddPart 64 15 = .ok 15 ∧
    getOddPart 64 118 = .ok 59 ∧ getOddPart 64 236 = .ok 59 ∧ getOddPart 64 1 = .ok 1 ∧
    getParent 64 1 = .ok none ∧ getParent 64 2 = .ok (some 1) ∧
    getParent 64 118 = .ok (some 59) ∧ getParent 64 236 = .ok (some 118) ∧
    getParent 64 5 = .ok (some 1) ∧ getParent 64 3 = .ok (some 5) ∧
    getParent 64 59 = .ok (some 89) ∧
    getAncestryChain 64 64 1 = .ok [1] ∧ getAncestryChain 64 64 2 = .ok [2, 1] ∧
    getAncestryChain 64 64 3 = .ok [3, 5, 1] ∧
    mintNextVersion 59 = .ok 118 ∧ mintNextVersion 118 = .ok 236 ∧
    getOddPart 64 0 = .err .invalidId ∧ getParent 64 (-5) = .err .invalidId := by
  decide

/-- More regression values of the test suite: the admissible children of the
root within exponent bound 10, and the first two children minted for node
59 (both verified by the source against getParent). -/
theorem mint_matches_test_suite :
    findAdmissibleAssociates 64 1 10 = .ok [5, 21, 85, 341] ∧
    findAdmissibleAssociates 64 5 15 = .ok [3, 13, 53, 213, 853, 3413, 13653, 54613] ∧
    mintNextChild 64 59 [] = .ok 39 ∧
    mintNextChild 64 59 [39] = .ok 157 := by
  refine ⟨by decide, by decide, by decide, by decide⟩

end Ctg
